import Mathlib

/-!
Shallow embedding of the `cpu` plugin of the monitor repository
(package `cpu`: the ring-buffered moving-average `sample` type, the
counter-rate calculator on the `CPU` struct, and the debounced
threshold-alert loop inside `New`).

Modelling conventions:
* Go `float64` values are modelled as exact rationals `ℚ`.  A floating
  division is `fdiv`, which returns `none` when the divisor is zero:
  `none` marks the non-finite value (NaN or ±Inf) that IEEE division by
  zero produces.  No other operation in the embedded code can produce a
  non-finite value from finite operands.
* Go `int` counters are modelled as `ℤ`, slice indices and lengths as `ℕ`.
* `time.Duration` and `time.Time` values are modelled as exact rational
  numbers of seconds; `time.Since(t)` at instant `now` is `now - t`.
* A Go slice expression `s[i:j]` is `goSlice`; at every place it is used
  the bounds are in range (proved where a theorem needs it).
* A Go index read that can panic (index out of range) is modelled with
  `List.get?`; the overall function returns `none` for the panic.
-/

/-- Floating-point division: `none` models the non-finite result
(NaN or ±Inf) that dividing by zero produces in Go `float64` math. -/
def fdiv (a b : ℚ) : Option ℚ := if b = 0 then none else some (a / b)

/-- Go slice expression `l[i:j]`. -/
def goSlice (l : List ℚ) (i j : ℕ) : List ℚ := (l.take j).drop i

/-- Go conversion `int64(x)` of a `float64`: truncation toward zero. -/
def int64trunc (q : ℚ) : ℤ := if 0 ≤ q then ⌊q⌋ else ⌈q⌉

/-- Addition of floating-point values where `none` is a non-finite
value: a non-finite operand makes the result non-finite. -/
def optAdd : Option ℚ → Option ℚ → Option ℚ
  | some x, some y => some (x + y)
  | _, _ => none

/-- Sum of a list of floating-point values where `none` is a non-finite
value: once a non-finite value enters the sum, the sum is non-finite.
Embeds the Go accumulation loops `for _, v := range ... { sum += v }`. -/
def optSum : List (Option ℚ) → Option ℚ
  | [] => some 0
  | a :: rest => optAdd a (optSum rest)

/-- The `sample` struct of the cpu package: ring buffer `values` with
write position `position`, fill flag `filled`, EMA smoothing factor
`alpha` and running EMA `expMovingAvg`. -/
structure sample where
  alpha : ℚ
  expMovingAvg : ℚ
  values : List ℚ
  position : ℕ
  filled : Bool
deriving DecidableEq

/-- Constructor `newSample(alpha, ringSize float64)`: the buffer is
`make([]float64, int64(ringSize))`, i.e. `int64(ringSize)` zero slots. -/
def newSample (alpha ringSize : ℚ) : sample :=
  { alpha := alpha
    expMovingAvg := 0
    values := List.replicate (int64trunc ringSize).toNat 0
    position := 0
    filled := false }

/-- Method `(s *sample) add(v float64)`: update the EMA (first-sample
case recognised by `position == 0 && !filled`), store `v` at the write
position, advance the position modulo the buffer length, and mark the
buffer filled when the position wraps to 0. -/
def sample.add (s : sample) (v : ℚ) : sample :=
  let ema := if s.position = 0 ∧ s.filled = false then v
             else v * s.alpha + s.expMovingAvg * (1 - s.alpha)
  let values := s.values.set s.position v
  let position := (s.position + 1) % values.length
  { alpha := s.alpha
    expMovingAvg := ema
    values := values
    position := position
    filled := if position = 0 then true else s.filled }

/-- Folding a whole list of values into a sample by repeated `add`. -/
def sample.addList (s : sample) (vs : List ℚ) : sample := vs.foldl sample.add s

/-- The `subSet` local of `movingAvg`: `(n/2)+(n%2)` over the full
length when `filled`, over `position` otherwise. -/
def sample.subSetOf (s : sample) : ℕ :=
  if s.filled then s.values.length / 2 + s.values.length % 2
  else s.position / 2 + s.position % 2

/-- The `toRange` local of `movingAvg`: `n/2` over the full length when
`filled`, over `position` otherwise. -/
def sample.toRangeOf (s : sample) : ℕ :=
  if s.filled then s.values.length / 2 else s.position / 2

/-- The `avgs` slice built by the first loop of `movingAvg`: for each
`i` from 0 to `toRange` inclusive, the average of the slice
`s.values[i : i+subSet]` (`sum/count` with `count` the number of
elements ranged over; `0/0` is the non-finite `none`). -/
def sample.bucketAverages (s : sample) : List (Option ℚ) :=
  (List.range (s.toRangeOf + 1)).map fun i =>
    fdiv (goSlice s.values i (i + s.subSetOf)).sum
      ((goSlice s.values i (i + s.subSetOf)).length : ℚ)

/-- Method `(s *sample) movingAvg() float64`: 0 when the buffer has
length 0; otherwise the average of the bucket averages (the second
loop sums `avgs` and divides by its element count). -/
def sample.movingAvg (s : sample) : Option ℚ :=
  if s.values.length = 0 then some 0
  else
    match optSum s.bucketAverages with
    | none => none
    | some ssum => fdiv ssum (s.bucketAverages.length : ℚ)

/-- The snapshot-holding part of the `CPU` struct: previous and current
cumulative per-category tick counters and their totals. -/
structure CPU where
  previous : List ℤ
  current : List ℤ
  currentTotal : ℤ
  previousTotal : ℤ
deriving DecidableEq

/-- Method `(c *CPU) clear()`: drop both snapshots and zero the totals. -/
def CPU.clear (c : CPU) : CPU :=
  { c with previous := [], current := [], currentTotal := 0, previousTotal := 0 }

/-- Method `(c *CPU) rate(name int) float64`: return 0 when `name`
is not a valid index of `current`; otherwise read
`current[name] - previous[name]` (the read of `previous[name]` can
panic — modelled by `none`), return 0 when the totals delta is 0, and
otherwise the percentage `delta / totalDelta * 100`. -/
def CPU.rate (c : CPU) (name : ℕ) : Option ℚ :=
  if c.current.length ≤ name then some 0
  else
    match c.current.get? name, c.previous.get? name with
    | some cur, some prev =>
      let delta : ℤ := cur - prev
      let total : ℤ := c.currentTotal - c.previousTotal
      if total = 0 then some 0
      else some ((delta : ℚ) / (total : ℚ) * 100)
    | _, _ => none

/-- The alert-debouncer state held in the closure of `New`: saturating
counters `alertCount` and `resolveCount`, the `triggered` flag and the
instant `lastUpdate` of the last dispatched notification. -/
structure AlertState where
  alertCount : ℕ
  resolveCount : ℕ
  triggered : Bool
  lastUpdate : ℚ
deriving DecidableEq

/-- Notification events dispatched by the loop in `New`. -/
inductive AlertEvent where
  | alert
  | resolved
deriving DecidableEq

/-- The count-update half of one tick of the alert loop in `New`:
on a breach increment `alertCount` (clamped at 3) and zero
`resolveCount`; otherwise increment `resolveCount` (clamped at 3) and
zero `alertCount`. -/
def updateCounts (st : AlertState) (breach : Bool) : AlertState :=
  if breach then
    { st with
      alertCount := if st.alertCount < 3 then st.alertCount + 1 else st.alertCount
      resolveCount := 0 }
  else
    { st with
      resolveCount := if st.resolveCount < 3 then st.resolveCount + 1 else st.resolveCount
      alertCount := 0 }

/-- One tick of the alert evaluation in `New`'s sampling loop: update
the counts from the breach input, then emit an Alert when
`alertCount == 3` and more than `cooldown` has elapsed since
`lastUpdate`, else a Resolved when `triggered`, `resolveCount == 3` and
more than `cooldown` has elapsed; an emission updates `triggered` and
`lastUpdate`. -/
def alertStep (cooldown : ℚ) (st : AlertState) (breach : Bool) (now : ℚ) :
    AlertState × Option AlertEvent :=
  let st1 := updateCounts st breach
  if st1.alertCount = 3 ∧ now - st1.lastUpdate > cooldown then
    ({ st1 with triggered := true, lastUpdate := now }, some AlertEvent.alert)
  else if st1.triggered = true ∧ st1.resolveCount = 3 ∧ now - st1.lastUpdate > cooldown then
    ({ st1 with triggered := false, lastUpdate := now }, some AlertEvent.resolved)
  else (st1, none)

/-- The initial debouncer state of `New`: zero counts, not triggered,
zero-time last notification. -/
def initAlertState : AlertState :=
  { alertCount := 0, resolveCount := 0, triggered := false, lastUpdate := 0 }

/-- Running the alert evaluation over a list of ticks, each a pair of
the breach input and the tick's `time.Now()` instant; returns the final
state and the per-tick emissions. -/
def runDebounce (cooldown : ℚ) (st : AlertState) :
    List (Bool × ℚ) → AlertState × List (Option AlertEvent)
  | [] => (st, [])
  | (b, now) :: rest =>
    let p := alertStep cooldown st b now
    let q := runDebounce cooldown p.1 rest
    (q.1, p.2 :: q.2)

/-- The configuration surface of `New` (`Config` struct), durations in
seconds. -/
structure Config where
  threshold : ℚ
  sampleRate : ℚ
  reportingInterval : ℚ
  slackInterval : ℚ
deriving DecidableEq

/-- The `alpha` local of `New`: `SampleRate.Seconds() / ReportingInterval.Seconds()`. -/
def derivedAlpha (cfg : Config) : ℚ := cfg.sampleRate / cfg.reportingInterval

/-- The `ringSize` local of `New`: `ReportingInterval.Seconds() / SampleRate.Seconds()`. -/
def derivedRingSize (cfg : Config) : ℚ := cfg.reportingInterval / cfg.sampleRate

/-- The `userGauge` entry of `c.averages` built by `New`:
`newSample(alpha, ringSize)`. -/
def newUserSample (cfg : Config) : sample :=
  newSample (derivedAlpha cfg) (derivedRingSize cfg)

/-- The `systemGauge` entry of `c.averages` built by `New`:
`newSample(alpha, 1)`. -/
def newSystemSample (cfg : Config) : sample := newSample (derivedAlpha cfg) 1

/-- The `idleGauge` entry of `c.averages` built by `New`:
`newSample(alpha, 1)`. -/
def newIdleSample (cfg : Config) : sample := newSample (derivedAlpha cfg) 1

/-- The `c.averages` slice built by `New`, indexed
`[userGauge, systemGauge, idleGauge]`. -/
def newAverages (cfg : Config) : List sample :=
  [newUserSample cfg, newSystemSample cfg, newIdleSample cfg]

/-- Plain average of a list of rationals (used to state the spec's
bucket-average construction; division by a zero length is ℚ junk 0,
used only where the length is non-zero). -/
def listAvg (l : List ℚ) : ℚ := l.sum / (l.length : ℚ)

/-- The spec's stated construction for `windowedAverage` on a full
buffer of length `n`: the plain average, over offsets `i` from 0 to
`n/2` inclusive, of the plain averages of the sub-windows
`l[i : i + (n/2 + n%2))`. -/
def bucketAvgSpec (l : List ℚ) : ℚ :=
  listAvg ((List.range (l.length / 2 + 1)).map fun i =>
    listAvg (goSlice l i (i + (l.length / 2 + l.length % 2))))

/-- The spec's EMA recurrence: starting from the first sample `v₀`,
each later sample `v` turns `e` into `v*α + e*(1-α)`. -/
def emaSpec (α v₀ : ℚ) (vs : List ℚ) : ℚ :=
  vs.foldl (fun e v => v * α + e * (1 - α)) v₀

lemma add_alpha (s : sample) (v : ℚ) : (s.add v).alpha = s.alpha := rfl

lemma add_values_length (s : sample) (v : ℚ) :
    (s.add v).values.length = s.values.length := by
  simp [sample.add]

lemma add_filled_of_position_eq_zero (s : sample) (v : ℚ) :
    (s.add v).position = 0 → (s.add v).filled = true := by
  simp only [sample.add, List.length_set]
  intro h
  simp [h]

lemma addList_ema (vs : List ℚ) : ∀ s : sample,
    (s.position = 0 → s.filled = true) →
    (s.addList vs).expMovingAvg = emaSpec s.alpha s.expMovingAvg vs := by
  induction vs with
  | nil => intro s _; rfl
  | cons v rest ih =>
    intro s hinv
    have hema : (s.add v).expMovingAvg = v * s.alpha + s.expMovingAvg * (1 - s.alpha) := by
      have hnot : ¬ (s.position = 0 ∧ s.filled = false) := by
        rintro ⟨h0, hf⟩
        rw [hinv h0] at hf
        cases hf
      simp [sample.add, hnot]
    have hrec := ih (s.add v) (add_filled_of_position_eq_zero s v)
    simp only [sample.addList, List.foldl_cons] at hrec ⊢
    rw [hrec, add_alpha, hema]
    rfl

/-- C6: on a fresh sample of capacity at least 1, the EMA after the
first `add` equals the first value, and each later `add v` turns the
EMA `e` into `v*alpha + e*(1-alpha)` (the first-sample case being the
`position == 0 && !filled` branch of `add`). -/
theorem ema_first_sample_and_recurrence (α r v₀ : ℚ) (vs : List ℚ)
    (hcap : 1 ≤ (newSample α r).values.length) :
    ((newSample α r).addList (v₀ :: vs)).expMovingAvg = emaSpec α v₀ vs := by
  have hfirst : ((newSample α r).add v₀).expMovingAvg = v₀ := by
    simp [sample.add, newSample]
  have halpha : ((newSample α r).add v₀).alpha = α := rfl
  have h := addList_ema vs ((newSample α r).add v₀)
    (add_filled_of_position_eq_zero _ _)
  simp only [sample.addList, List.foldl_cons] at h ⊢
  rw [h, halpha, hfirst]

/-- Witness for C6 at a concrete input: capacity 2, alpha 1/2, samples
4 then 8 give EMA `8*(1/2) + 4*(1/2) = 6`. -/
theorem ema_first_sample_and_recurrence_witness :
    1 ≤ (newSample (1/2) 2).values.length ∧
    ((newSample (1/2) 2).addList [4, 8]).expMovingAvg = emaSpec (1/2) 4 [8] :=
  ⟨by norm_num [newSample, int64trunc],
   ema_first_sample_and_recurrence (1/2) 2 4 [8] (by norm_num [newSample, int64trunc])⟩

lemma goSlice_length (l : List ℚ) (i k : ℕ) (h : i + k ≤ l.length) :
    (goSlice l i (i + k)).length = k := by
  simp only [goSlice, List.length_drop, List.length_take]
  omega

lemma optSum_map_some {α : Type} (l : List α) (f : α → ℚ) :
    optSum (l.map fun a => some (f a)) = some ((l.map f).sum) := by
  induction l with
  | nil => rfl
  | cons a rest ih => simp [optSum, optAdd, ih]

/-- C4: on a filled buffer of capacity `n ≥ 1`, `movingAvg` is exactly
the spec's overlapping bucket-average construction: the plain average,
over offsets `i` from 0 to `⌊n/2⌋` inclusive, of the plain averages of
the sub-windows `buffer[i : i + ⌈n/2⌉)`. -/
theorem movingAvg_filled_bucket_average (s : sample)
    (hf : s.filled = true) (hl : 1 ≤ s.values.length) :
    s.movingAvg = some (bucketAvgSpec s.values) := by
  have h0 : ¬ s.values.length = 0 := by omega
  have hsub : s.subSetOf = s.values.length / 2 + s.values.length % 2 := by
    simp [sample.subSetOf, hf]
  have htr : s.toRangeOf = s.values.length / 2 := by
    simp [sample.toRangeOf, hf]
  have hba : s.bucketAverages =
      (List.range (s.values.length / 2 + 1)).map fun i =>
        some (listAvg (goSlice s.values i (i + (s.values.length / 2 + s.values.length % 2)))) := by
    rw [sample.bucketAverages, hsub, htr]
    apply List.map_congr_left
    intro i hi
    have hi' : i < s.values.length / 2 + 1 := List.mem_range.mp hi
    have hlen : (goSlice s.values i
        (i + (s.values.length / 2 + s.values.length % 2))).length
        = s.values.length / 2 + s.values.length % 2 :=
      goSlice_length _ _ _ (by omega)
    have hq : s.values.length / 2 + s.values.length % 2 ≠ 0 := by omega
    have hne : ¬(((s.values.length / 2 : ℕ) : ℚ) + ((s.values.length % 2 : ℕ) : ℚ) = 0) := by
      exact_mod_cast hq
    rw [hlen]
    simp [fdiv, hne, listAvg, hlen]
  have hosum := optSum_map_some (List.range (s.values.length / 2 + 1))
    (fun i => listAvg (goSlice s.values i (i + (s.values.length / 2 + s.values.length % 2))))
  have hcount : ¬(((s.values.length / 2 : ℕ) : ℚ) + 1 = 0) := by positivity
  simp only [sample.movingAvg, h0, if_false, hba, hosum]
  simp [fdiv, hcount, bucketAvgSpec, listAvg]

/-- Witness for C4 at a concrete input: the filled 3-slot buffer
`[1, 2, 3]` gives the bucket construction's value. -/
theorem movingAvg_filled_bucket_average_witness :
    ({ alpha := 1, expMovingAvg := 0, values := [1, 2, 3], position := 0,
       filled := true } : sample).filled = true ∧
    sample.movingAvg ⟨1, 0, [1, 2, 3], 0, true⟩ = some (bucketAvgSpec [1, 2, 3]) :=
  ⟨rfl, movingAvg_filled_bucket_average ⟨1, 0, [1, 2, 3], 0, true⟩ rfl (by decide)⟩

/-- C5: while the buffer is not yet filled and `position ≥ 1`,
`movingAvg` reads only the first `position` entries: two unfilled
samples with the same write position and the same first `position`
values (whatever sits in their tails) have the same `movingAvg`. -/
theorem movingAvg_unfilled_ignores_tail (s t : sample)
    (hsf : s.filled = false) (htf : t.filled = false)
    (hp : t.position = s.position) (h1 : 1 ≤ s.position)
    (hsl : s.position ≤ s.values.length) (htl : t.position ≤ t.values.length)
    (hpre : s.values.take s.position = t.values.take t.position) :
    s.movingAvg = t.movingAvg := by
  have hs0 : ¬ s.values.length = 0 := by omega
  have ht0 : ¬ t.values.length = 0 := by omega
  have hsub_s : s.subSetOf = s.position / 2 + s.position % 2 := by
    simp [sample.subSetOf, hsf]
  have hsub_t : t.subSetOf = s.position / 2 + s.position % 2 := by
    simp [sample.subSetOf, htf, hp]
  have htr_s : s.toRangeOf = s.position / 2 := by simp [sample.toRangeOf, hsf]
  have htr_t : t.toRangeOf = s.position / 2 := by simp [sample.toRangeOf, htf, hp]
  have hba : s.bucketAverages = t.bucketAverages := by
    rw [sample.bucketAverages, sample.bucketAverages, hsub_s, hsub_t, htr_s, htr_t]
    apply List.map_congr_left
    intro i hi
    have hi' : i < s.position / 2 + 1 := List.mem_range.mp hi
    have hk : i + (s.position / 2 + s.position % 2) ≤ s.position := by omega
    have hwin : goSlice s.values i (i + (s.position / 2 + s.position % 2)) =
        goSlice t.values i (i + (s.position / 2 + s.position % 2)) := by
      unfold goSlice
      have hs' : s.values.take (i + (s.position / 2 + s.position % 2)) =
          (s.values.take s.position).take (i + (s.position / 2 + s.position % 2)) := by
        rw [List.take_take, min_eq_left hk]
      have ht' : t.values.take (i + (s.position / 2 + s.position % 2)) =
          (t.values.take t.position).take (i + (s.position / 2 + s.position % 2)) := by
        rw [List.take_take, min_eq_left (by omega : i + (s.position / 2 + s.position % 2) ≤ t.position)]
      rw [hs', ht', hpre]
    rw [hwin]
  simp only [sample.movingAvg, hs0, ht0, if_false, hba]

/-- Witness for C5 at a concrete input: two unfilled buffers with the
same two written entries but different zero/junk tails agree. -/
theorem movingAvg_unfilled_ignores_tail_witness :
    sample.movingAvg ⟨1, 0, [5, 7, 0, 0], 2, false⟩ =
      sample.movingAvg ⟨1, 0, [5, 7, 9, 9, 9], 2, false⟩ :=
  movingAvg_unfilled_ignores_tail ⟨1, 0, [5, 7, 0, 0], 2, false⟩
    ⟨1, 0, [5, 7, 9, 9, 9], 2, false⟩ rfl rfl rfl (by decide) (by decide) (by decide)
    (by decide)

/-- C2 (amended): `movingAvg` returns 0 when the buffer has length 0,
but on a sample of capacity at least 1 holding no real samples yet
(`position == 0`, not `filled`) it computes `0/0`, a non-finite value
(`none`), instead of the guarded 0. -/
theorem movingAvg_degenerate_cases :
    (∀ s : sample, s.values.length = 0 → s.movingAvg = some 0) ∧
    (∀ s : sample, 1 ≤ s.values.length → s.position = 0 → s.filled = false →
      s.movingAvg = none) := by
  constructor
  · intro s h
    simp [sample.movingAvg, h]
  · intro s hl hp hf
    have h0 : ¬ s.values.length = 0 := by omega
    have hsub : s.subSetOf = 0 := by simp [sample.subSetOf, hf, hp]
    have htr : s.toRangeOf = 0 := by simp [sample.toRangeOf, hf, hp]
    have hba : s.bucketAverages = [none] := by
      simp [sample.bucketAverages, hsub, htr, goSlice, fdiv]
    simp [sample.movingAvg, h0, hba, optSum, optAdd]

/-- Counterexample for C2 as stated: a fresh capacity-1 sample has
`capacity ≥ 1` and no real samples, and `movingAvg` is the non-finite
`none` (the unguarded `0/0`), not 0. -/
theorem movingAvg_fresh_sample_nonfinite :
    1 ≤ (newSample 1 1).values.length ∧ (newSample 1 1).position = 0 ∧
    (newSample 1 1).filled = false ∧ sample.movingAvg (newSample 1 1) = none ∧
    sample.movingAvg (newSample 1 1) ≠ some 0 := by
  refine ⟨by decide, by decide, by decide, by decide, by decide⟩

/-- C3 (amended): with both snapshots absent (the post-`clear` and
first-call state) `rate` returns 0 for every category; but in a state
where `current` is present and `previous` is absent, `rate` reads
`previous[name]` out of bounds (a panic, modelled `none`) for every
category index inside `current`. -/
theorem rate_absent_snapshots :
    (∀ (c : CPU) (name : ℕ), (c.clear).rate name = some 0) ∧
    (∀ (c : CPU) (name : ℕ), c.current = [] → c.rate name = some 0) ∧
    (∀ (c : CPU) (name : ℕ), c.previous = [] → name < c.current.length →
      c.rate name = none) := by
  refine ⟨?_, ?_, ?_⟩
  · intro c name
    simp [CPU.clear, CPU.rate]
  · intro c name h
    simp [CPU.rate, h]
  · intro c name hp hc
    have hn : ¬ c.current.length ≤ name := by omega
    have hcur := List.get?_eq_get hc
    simp [CPU.rate, hn, hcur, hp]

/-- Counterexample for C3 as stated: with `previous` absent but
`current` present, `rate 0` is the out-of-bounds read (`none`), not 0. -/
theorem rate_previous_absent_panics :
    CPU.rate ⟨[], [10, 20, 30, 40], 100, 0⟩ 0 = none ∧
    CPU.rate ⟨[], [10, 20, 30, 40], 100, 0⟩ 0 ≠ some 0 := by
  refine ⟨by decide, by decide⟩

/-- C7: with both snapshots present and a valid category index, `rate`
returns exactly 0 when the totals are equal, whatever the per-category
deltas, and otherwise `(current[name] - previous[name]) / (currentTotal
- previousTotal) * 100`. -/
theorem rate_formula (c : CPU) (name : ℕ)
    (hcur : name < c.current.length) (hprev : name < c.previous.length) :
    (c.currentTotal = c.previousTotal → c.rate name = some 0) ∧
    (c.currentTotal ≠ c.previousTotal →
      c.rate name = some
        (((c.current[name] - c.previous[name] : ℤ) : ℚ) /
          ((c.currentTotal - c.previousTotal : ℤ) : ℚ) * 100)) := by
  have hn : ¬ c.current.length ≤ name := by omega
  constructor
  · intro h
    have ht : c.currentTotal - c.previousTotal = 0 := by omega
    simp [CPU.rate, hn, List.getElem?_eq_getElem hcur, List.getElem?_eq_getElem hprev, ht]
  · intro h
    have ht : ¬ (c.currentTotal - c.previousTotal = 0) := by omega
    simp [CPU.rate, hn, List.getElem?_eq_getElem hcur, List.getElem?_eq_getElem hprev, ht]

/-- Witness for C7 at a concrete input: totals delta 200, user delta
30, rate `30/200*100 = 15`. -/
theorem rate_formula_witness :
    CPU.rate ⟨[10, 0, 0, 0], [40, 0, 0, 0], 300, 100⟩ 0 = some 15 := by
  have h := (rate_formula ⟨[10, 0, 0, 0], [40, 0, 0, 0], 300, 100⟩ 0
    (by decide) (by decide)).2 (by decide)
  rw [h]
  norm_num

/-- C9 (amended): for every configuration with positive rates, `New`
derives `alpha = sampleRate/reportingInterval`, and the user ring
capacity is the *truncation* `int64(reportingInterval/sampleRate)`,
i.e. the floor of the positive ratio — not its rounding. -/
theorem derived_alpha_and_truncated_capacity (cfg : Config)
    (hs : 0 < cfg.sampleRate) (hr : 0 < cfg.reportingInterval) :
    (newUserSample cfg).alpha = cfg.sampleRate / cfg.reportingInterval ∧
    ((newUserSample cfg).values.length : ℤ) = ⌊cfg.reportingInterval / cfg.sampleRate⌋ := by
  constructor
  · rfl
  · have hpos : 0 ≤ cfg.reportingInterval / cfg.sampleRate := by positivity
    have hfl : 0 ≤ ⌊cfg.reportingInterval / cfg.sampleRate⌋ := Int.floor_nonneg.mpr hpos
    simp [newUserSample, newSample, derivedRingSize, int64trunc, hpos,
      Int.toNat_of_nonneg hfl]

/-- Witness for C9 (amended) at a concrete input: sampleRate 2s,
reportingInterval 5s give alpha 2/5 and capacity `⌊5/2⌋`. -/
theorem derived_alpha_and_truncated_capacity_witness :
    (newUserSample ⟨80, 2, 5, 300⟩).alpha = 2 / 5 ∧
    ((newUserSample ⟨80, 2, 5, 300⟩).values.length : ℤ) = ⌊(5 : ℚ) / 2⌋ := by
  have h := derived_alpha_and_truncated_capacity ⟨80, 2, 5, 300⟩
    (by norm_num) (by norm_num)
  exact h

/-- Counterexample for C9 as stated: a ratio of 2.5 yields capacity 2
by truncation, while rounding (as the claim states it) would give 3. -/
theorem capacity_not_rounded_at_ratio_five_halves :
    ((newUserSample ⟨80, 2, 5, 300⟩).values.length : ℤ) = 2 ∧
    round ((5 : ℚ) / 2) = 3 ∧
    ((newUserSample ⟨80, 2, 5, 300⟩).values.length : ℤ) ≠ round ((5 : ℚ) / 2) := by
  have h1 : ((newUserSample ⟨80, 2, 5, 300⟩).values.length : ℤ) = 2 := by
    norm_num [newUserSample, newSample, derivedRingSize, int64trunc]
  have h2 : round ((5 : ℚ) / 2) = 3 := by
    norm_num [round_eq]
  exact ⟨h1, h2, by rw [h1, h2]; decide⟩

lemma add_cap_one (s : sample) (h : s.values.length = 1) (hp : s.position = 0) (v : ℚ) :
    (s.add v).values = [v] ∧ (s.add v).position = 0 ∧ (s.add v).filled = true := by
  obtain ⟨a, ha⟩ := List.length_eq_one.mp h
  refine ⟨?_, ?_, ?_⟩ <;> simp [sample.add, ha, hp]

lemma addList_cap_one (vs : List ℚ) : ∀ s : sample,
    s.values.length = 1 → s.position = 0 →
    (s.addList vs).values.length = 1 ∧ (s.addList vs).position = 0 := by
  induction vs with
  | nil => intro s h hp; exact ⟨h, hp⟩
  | cons v rest ih =>
    intro s h hp
    have h3 := add_cap_one s h hp v
    simp only [sample.addList, List.foldl_cons] at ih ⊢
    exact ih (s.add v) (by rw [h3.1]; rfl) h3.2.1

lemma movingAvg_single (s : sample) (v : ℚ) (hv : s.values = [v])
    (hf : s.filled = true) : s.movingAvg = some v := by
  have h0 : ¬ s.values.length = 0 := by rw [hv]; simp
  have hsub : s.subSetOf = 1 := by simp [sample.subSetOf, hf, hv]
  have htr : s.toRangeOf = 0 := by simp [sample.toRangeOf, hf, hv]
  have hba : s.bucketAverages = [some v] := by
    simp [sample.bucketAverages, hsub, htr, hv, goSlice, fdiv, List.range_succ]
  simp [sample.movingAvg, h0, hba, optSum, optAdd, fdiv]

/-- C10: `New` gives the system and idle gauges single-slot rings
(`newSample(alpha, 1)`), so after any adds ending in `add v` their
`movingAvg` is exactly the last value `v`; only the user gauge gets the
multi-slot `reportingInterval/sampleRate` ring (capacity at least 2
whenever the reporting interval is at least twice the sample rate). -/
theorem system_idle_single_slot_follow_last :
    (∀ cfg : Config, (newSystemSample cfg).values.length = 1) ∧
    (∀ cfg : Config, (newIdleSample cfg).values.length = 1) ∧
    (∀ (α : ℚ) (vs : List ℚ) (v : ℚ),
      ((newSample α 1).addList (vs ++ [v])).movingAvg = some v) ∧
    (∀ cfg : Config, 0 < cfg.sampleRate → 2 * cfg.sampleRate ≤ cfg.reportingInterval →
      2 ≤ (newUserSample cfg).values.length) := by
  refine ⟨?_, ?_, ?_, ?_⟩
  · intro cfg; simp [newSystemSample, newSample, int64trunc]
  · intro cfg; simp [newIdleSample, newSample, int64trunc]
  · intro α vs v
    have hlen : (newSample α 1).values.length = 1 := by simp [newSample, int64trunc]
    have hpos : (newSample α 1).position = 0 := rfl
    have hinv := addList_cap_one vs (newSample α 1) hlen hpos
    have hfin := add_cap_one ((newSample α 1).addList vs) hinv.1 hinv.2 v
    have happ : (newSample α 1).addList (vs ++ [v]) =
        ((newSample α 1).addList vs).add v := by
      simp [sample.addList, List.foldl_append]
    rw [happ]
    exact movingAvg_single _ v hfin.1 hfin.2.2
  · intro cfg hs hr2
    have hri : 0 < cfg.reportingInterval := by linarith
    have hratio : (2 : ℚ) ≤ cfg.reportingInterval / cfg.sampleRate := by
      rw [le_div_iff₀ hs]; linarith
    have hfloor : (2 : ℤ) ≤ ⌊cfg.reportingInterval / cfg.sampleRate⌋ :=
      Int.le_floor.mpr (by exact_mod_cast hratio)
    have hnn : 0 ≤ cfg.reportingInterval / cfg.sampleRate :=
      le_of_lt (div_pos hri hs)
    simp [newUserSample, newSample, derivedRingSize, int64trunc, hnn]
    omega

lemma updateCounts_lastUpdate (st : AlertState) (b : Bool) :
    (updateCounts st b).lastUpdate = st.lastUpdate := by
  cases b <;> simp [updateCounts]

lemma updateCounts_triggered (st : AlertState) (b : Bool) :
    (updateCounts st b).triggered = st.triggered := by
  cases b <;> simp [updateCounts]

lemma updateCounts_alertCount_false (st : AlertState) :
    (updateCounts st false).alertCount = 0 := by
  simp [updateCounts]

lemma updateCounts_mutex (st : AlertState) (b : Bool) :
    (updateCounts st b).alertCount = 0 ∨ (updateCounts st b).resolveCount = 0 := by
  cases b <;> simp [updateCounts]

lemma alertStep_alert_iff (cd : ℚ) (st : AlertState) (b : Bool) (now : ℚ) :
    (alertStep cd st b now).2 = some AlertEvent.alert ↔
      ((updateCounts st b).alertCount = 3 ∧ now - st.lastUpdate > cd) := by
  simp only [alertStep, updateCounts_lastUpdate]
  split_ifs with h1 h2 <;> simp_all

lemma alertStep_resolved_iff (cd : ℚ) (st : AlertState) (b : Bool) (now : ℚ) :
    (alertStep cd st b now).2 = some AlertEvent.resolved ↔
      (st.triggered = true ∧ (updateCounts st b).resolveCount = 3 ∧
        now - st.lastUpdate > cd) := by
  simp only [alertStep, updateCounts_lastUpdate, updateCounts_triggered]
  split_ifs with h1 h2
  · rcases updateCounts_mutex st b with hA | hR <;> simp_all
  · simp_all
  · simp_all

lemma alertStep_resolved_effects (cd : ℚ) (st : AlertState) (b : Bool) (now : ℚ) :
    (alertStep cd st b now).2 = some AlertEvent.resolved →
      (alertStep cd st b now).1.triggered = false ∧
      (alertStep cd st b now).1.lastUpdate = now := by
  simp only [alertStep]
  split_ifs <;> simp_all

lemma alertStep_state_alertCount (cd : ℚ) (st : AlertState) (b : Bool) (now : ℚ) :
    (alertStep cd st b now).1.alertCount = (updateCounts st b).alertCount := by
  simp only [alertStep]
  split_ifs <;> rfl

lemma runDebounce_alertCount (cd : ℚ) (l : List (Bool × ℚ)) :
    ∀ (st : AlertState) (k : ℕ), st.alertCount = min 3 k →
    (runDebounce cd st l).1.alertCount =
      min 3 ((l.map Prod.fst).foldl (fun acc b => if b then acc + 1 else 0) k) := by
  induction l with
  | nil => intro st k hk; simpa [runDebounce] using hk
  | cons p rest ih =>
    obtain ⟨b, now⟩ := p
    intro st k hk
    simp only [runDebounce, List.map_cons, List.foldl_cons]
    apply ih
    rw [alertStep_state_alertCount]
    cases b with
    | false => simp [updateCounts]
    | true =>
      simp [updateCounts, hk]
      split_ifs <;> omega

lemma runDebounce_two_breaches_reset (cd t1 t2 t3 : ℚ) :
    (runDebounce cd initAlertState [(true, t1), (true, t2), (false, t3)]).2 =
      [none, none, none] := by
  simp [runDebounce, alertStep, updateCounts, initAlertState]

/-- C1: an Alert is emitted on a tick exactly when the tick's update
has brought (or kept) `alertCount` at 3 and more than `cooldown` has
elapsed since `lastUpdate`; one non-breaching tick zeroes `alertCount`;
over any run from the initial state `alertCount` is the trailing count
of consecutive breaching ticks clamped at 3 (so an alert needs at
least 3 breaches in a row); and the run breach, breach, non-breach
emits no event at all. -/
theorem alert_emission_characterization :
    (∀ (cd now : ℚ) (st : AlertState) (b : Bool),
      (alertStep cd st b now).2 = some AlertEvent.alert ↔
        ((updateCounts st b).alertCount = 3 ∧ now - st.lastUpdate > cd)) ∧
    (∀ st : AlertState, (updateCounts st false).alertCount = 0) ∧
    (∀ (cd : ℚ) (l : List (Bool × ℚ)),
      (runDebounce cd initAlertState l).1.alertCount =
        min 3 ((l.map Prod.fst).foldl (fun acc b => if b then acc + 1 else 0) 0)) ∧
    (∀ cd t1 t2 t3 : ℚ,
      (runDebounce cd initAlertState [(true, t1), (true, t2), (false, t3)]).2 =
        [none, none, none]) :=
  ⟨fun cd now st b => alertStep_alert_iff cd st b now,
   fun st => updateCounts_alertCount_false st,
   fun cd l => runDebounce_alertCount cd l initAlertState 0 (by decide),
   fun cd t1 t2 t3 => runDebounce_two_breaches_reset cd t1 t2 t3⟩

/-- C8: a Resolved is emitted on a tick exactly when the debouncer was
already `triggered`, the tick's update has brought (or kept)
`resolveCount` at 3, and more than `cooldown` has elapsed since
`lastUpdate`; the emission clears `triggered` and stamps `lastUpdate`;
and no Resolved is ever emitted while `triggered` is false. -/
theorem resolved_emission_characterization :
    (∀ (cd now : ℚ) (st : AlertState) (b : Bool),
      (alertStep cd st b now).2 = some AlertEvent.resolved ↔
        (st.triggered = true ∧ (updateCounts st b).resolveCount = 3 ∧
          now - st.lastUpdate > cd)) ∧
    (∀ (cd now : ℚ) (st : AlertState) (b : Bool),
      (alertStep cd st b now).2 = some AlertEvent.resolved →
        (alertStep cd st b now).1.triggered = false ∧
        (alertStep cd st b now).1.lastUpdate = now) ∧
    (∀ (cd now : ℚ) (st : AlertState) (b : Bool),
      st.triggered = false → (alertStep cd st b now).2 ≠ some AlertEvent.resolved) :=
  ⟨fun cd now st b => alertStep_resolved_iff cd st b now,
   fun cd now st b => alertStep_resolved_effects cd st b now,
   fun cd now st b ht hres => by
     have h := (alertStep_resolved_iff cd st b now).mp hres
     rw [ht] at h
     cases h.1⟩
